import Mathlib

/-!
# Verification of the horned-owl ontology core (`src/model.rs`)

Shallow embedding of the single source file `src/model.rs`: an identifier
interner (a `BiMap<usize, String>` plus a process-wide counter), entity and
expression types (`IRI`, `Class`, `ObjectProperty`, `ClassExpression`,
`SubClass`), the `Checkable` validation protocol, and the `Ontology` store
with its validate-then-deduplicate constructors and direct-subclass queries.

Modelling conventions:
* `HashSet<T>` becomes a `List T` inserted into only when the element is
  absent (mirroring the `if let Some(_) = set.get(&x) { return x; }` pattern);
* `BiMap<usize, String>` becomes a `List (Nat × String)` whose insert first
  removes any pair colliding on either side, matching `bimap::BiMap::insert`;
* the `static mut COUNTER: usize` is threaded explicitly: `Ontology.iri`
  takes and returns the counter, and a `Process` bundles all live ontology
  instances with the one shared counter;
* a `check` that panics (`ForeignReferenceError`) is modelled by the
  constructor returning `none` together with the unchanged ontology, so the
  abort-before-mutation behaviour is visible in the result.
-/

namespace HornedOwl

/-- `pub struct IRI(usize)` from the source. -/
structure IRI where
  val : Nat
deriving DecidableEq, Repr

/-- `pub struct Class(pub IRI)` from the source. -/
structure Class where
  iri : IRI
deriving DecidableEq, Repr

/-- `pub struct ObjectProperty(IRI)` from the source. -/
structure ObjectProperty where
  iri : IRI
deriving DecidableEq, Repr

/-- `pub enum ClassExpression` from the source.  The `Some` struct's
`object_property`/`filler` fields are inlined into the variant; the `And`
struct's single `operands: Vec<ClassExpression>` field is inlined as a list.
In the source the `Or` variant reuses the `And` payload type, so both carry
the same operand list here. -/
inductive ClassExpression where
  | Class (c : HornedOwl.Class)
  | Some (object_property : ObjectProperty) (filler : ClassExpression)
  | And (operands : List ClassExpression)
  | Or (operands : List ClassExpression)

mutual

/-- Structural (derive-style) decidable equality for the nested inductive. -/
def ClassExpression.decEq : (a b : ClassExpression) → Decidable (a = b)
  | ClassExpression.Class a, ClassExpression.Class b =>
      if h : a = b then Decidable.isTrue (by rw [h])
      else Decidable.isFalse (fun hc => by injection hc with h1; exact h h1)
  | ClassExpression.Some p f, ClassExpression.Some q g =>
      if hp : p = q then
        match ClassExpression.decEq f g with
        | Decidable.isTrue hf => Decidable.isTrue (by rw [hp, hf])
        | Decidable.isFalse hf =>
            Decidable.isFalse (fun hc => by injection hc with h1 h2; exact hf h2)
      else Decidable.isFalse (fun hc => by injection hc with h1 h2; exact hp h1)
  | ClassExpression.And xs, ClassExpression.And ys =>
      match ClassExpression.decEqList xs ys with
      | Decidable.isTrue h => Decidable.isTrue (by rw [h])
      | Decidable.isFalse h =>
          Decidable.isFalse (fun hc => by injection hc with h1; exact h h1)
  | ClassExpression.Or xs, ClassExpression.Or ys =>
      match ClassExpression.decEqList xs ys with
      | Decidable.isTrue h => Decidable.isTrue (by rw [h])
      | Decidable.isFalse h =>
          Decidable.isFalse (fun hc => by injection hc with h1; exact h h1)
  | ClassExpression.Class _, ClassExpression.Some _ _ =>
      Decidable.isFalse (fun hc => ClassExpression.noConfusion hc)
  | ClassExpression.Class _, ClassExpression.And _ =>
      Decidable.isFalse (fun hc => ClassExpression.noConfusion hc)
  | ClassExpression.Class _, ClassExpression.Or _ =>
      Decidable.isFalse (fun hc => ClassExpression.noConfusion hc)
  | ClassExpression.Some _ _, ClassExpression.Class _ =>
      Decidable.isFalse (fun hc => ClassExpression.noConfusion hc)
  | ClassExpression.Some _ _, ClassExpression.And _ =>
      Decidable.isFalse (fun hc => ClassExpression.noConfusion hc)
  | ClassExpression.Some _ _, ClassExpression.Or _ =>
      Decidable.isFalse (fun hc => ClassExpression.noConfusion hc)
  | ClassExpression.And _, ClassExpression.Class _ =>
      Decidable.isFalse (fun hc => ClassExpression.noConfusion hc)
  | ClassExpression.And _, ClassExpression.Some _ _ =>
      Decidable.isFalse (fun hc => ClassExpression.noConfusion hc)
  | ClassExpression.And _, ClassExpression.Or _ =>
      Decidable.isFalse (fun hc => ClassExpression.noConfusion hc)
  | ClassExpression.Or _, ClassExpression.Class _ =>
      Decidable.isFalse (fun hc => ClassExpression.noConfusion hc)
  | ClassExpression.Or _, ClassExpression.Some _ _ =>
      Decidable.isFalse (fun hc => ClassExpression.noConfusion hc)
  | ClassExpression.Or _, ClassExpression.And _ =>
      Decidable.isFalse (fun hc => ClassExpression.noConfusion hc)

/-- Decidable equality on operand lists, mutually with `decEq`. -/
def ClassExpression.decEqList : (xs ys : List ClassExpression) → Decidable (xs = ys)
  | [], [] => Decidable.isTrue rfl
  | [], _ :: _ => Decidable.isFalse (fun hc => List.noConfusion hc)
  | _ :: _, [] => Decidable.isFalse (fun hc => List.noConfusion hc)
  | x :: xs, y :: ys =>
      match ClassExpression.decEq x y, ClassExpression.decEqList xs ys with
      | Decidable.isTrue h1, Decidable.isTrue h2 => Decidable.isTrue (by rw [h1, h2])
      | Decidable.isFalse h1, _ =>
          Decidable.isFalse (fun hc => by injection hc with hh ht; exact h1 hh)
      | _, Decidable.isFalse h2 =>
          Decidable.isFalse (fun hc => by injection hc with hh ht; exact h2 ht)

end

instance : DecidableEq ClassExpression := ClassExpression.decEq

/-- `pub struct SubClass` from the source. -/
structure SubClass where
  superclass : ClassExpression
  subclass : ClassExpression
deriving DecidableEq

/-- `pub struct OntologyID` from the source. -/
structure OntologyID where
  iri : Option IRI
  viri : Option IRI
deriving DecidableEq, Repr

/-- `pub struct Ontology` from the source.  Field `id_str` is the
`BiMap<usize,String>`; the five `HashSet` fields `class`, `subclass`,
`object_property`, `some`, `and` are pluralised (`class` is a Lean keyword). -/
structure Ontology where
  id_str : List (Nat × String)
  id : OntologyID
  classes : List HornedOwl.Class
  subclasses : List SubClass
  object_properties : List ObjectProperty
  somes : List ClassExpression
  ands : List (List ClassExpression)
deriving DecidableEq

/-- `BiMap::get_by_right`: first pair whose string side matches. -/
def getByRight (m : List (Nat × String)) (s : String) : Option Nat :=
  (m.find? (fun p => p.2 == s)).map Prod.fst

/-- `BiMap::get_by_left`: first pair whose numeric side matches. -/
def getByLeft (m : List (Nat × String)) (n : Nat) : Option String :=
  (m.find? (fun p => p.1 == n)).map Prod.snd

/-- `BiMap::contains_left`. -/
def containsLeft (m : List (Nat × String)) (n : Nat) : Bool :=
  m.any (fun p => p.1 == n)

/-- `BiMap::contains_right`. -/
def containsRight (m : List (Nat × String)) (s : String) : Bool :=
  m.any (fun p => p.2 == s)

/-- `BiMap::insert`: removes any pair colliding on either side, then adds. -/
def bimapInsert (m : List (Nat × String)) (n : Nat) (s : String) :
    List (Nat × String) :=
  (n, s) :: m.filter (fun p => p.1 != n && p.2 != s)

/-- `Ontology::new`. -/
def Ontology.new : Ontology :=
  { id_str := []
    id := { iri := none, viri := none }
    classes := []
    subclasses := []
    object_properties := []
    somes := []
    ands := [] }

/-- `Ontology::contains_id`. -/
def Ontology.contains_id (o : Ontology) (n : Nat) : Bool :=
  containsLeft o.id_str n

/-- `Ontology::contains_iri`. -/
def Ontology.contains_iri (o : Ontology) (s : String) : Bool :=
  containsRight o.id_str s

/-- `Ontology::iri`: look the name up by the string side; if present return
the existing identifier, else allocate `COUNTER + 1` from the process-wide
counter (`next_id`) and insert the pair.  The counter is threaded explicitly:
the result is (returned IRI, updated ontology, updated counter). -/
def Ontology.iri (o : Ontology) (counter : Nat) (s : String) :
    IRI × Ontology × Nat :=
  match getByRight o.id_str s with
  | some n => (IRI.mk n, o, counter)
  | none =>
      let n := counter + 1
      (IRI.mk n, { o with id_str := bimapInsert o.id_str n s }, n)

/-- `Ontology::iri_to_str`. -/
def Ontology.iri_to_str (o : Ontology) (i : IRI) : Option String :=
  getByLeft o.id_str i.val

/-- `impl Checkable for IRI`: membership in this instance's interning table.
`check` panics in the source; here it is the Boolean the panic branches on. -/
def IRI.checkb (i : IRI) (o : Ontology) : Bool :=
  o.contains_id i.val

/-- `impl Checkable for Class`. -/
def Class.checkb (c : HornedOwl.Class) (o : Ontology) : Bool :=
  o.contains_id c.iri.val

/-- `impl Checkable for ObjectProperty`. -/
def ObjectProperty.checkb (p : ObjectProperty) (o : Ontology) : Bool :=
  o.contains_id p.iri.val

mutual

/-- `impl Checkable for ClassExpression` (together with the `Checkable`
impls for `Some`, `And` and `Or` it dispatches to): depth-first recursive
validation of every atomic identifier. -/
def ClassExpression.checkb (o : Ontology) : ClassExpression → Bool
  | ClassExpression.Class c => c.checkb o
  | ClassExpression.Some p f => p.checkb o && ClassExpression.checkb o f
  | ClassExpression.And ops => ClassExpression.checkbList o ops
  | ClassExpression.Or ops => ClassExpression.checkbList o ops

/-- The `for i in &self.operands { i.check(ont); }` loop of the `And`/`Or`
`Checkable` impls: every operand is checked in order, aborting at the first
failure. -/
def ClassExpression.checkbList (o : Ontology) : List ClassExpression → Bool
  | [] => true
  | e :: es => ClassExpression.checkb o e && ClassExpression.checkbList o es

end

/-- `impl Checkable for SubClass`. -/
def SubClass.checkb (sc : SubClass) (o : Ontology) : Bool :=
  ClassExpression.checkb o sc.superclass && ClassExpression.checkb o sc.subclass

/-- `Ontology::class` (named `defineClass` because `class` is a Lean
keyword): validate, then return the existing equal element or insert.
`(none, o)` models the `check` panic: the operation aborts with the
ontology unchanged. -/
def Ontology.defineClass (o : Ontology) (i : IRI) :
    Option HornedOwl.Class × Ontology :=
  let c : HornedOwl.Class := ⟨i⟩
  if c.checkb o then
    if c ∈ o.classes then (some c, o)
    else (some c, { o with classes := c :: o.classes })
  else (none, o)

/-- `Ontology::object_property`. -/
def Ontology.defineObjectProperty (o : Ontology) (i : IRI) :
    Option ObjectProperty × Ontology :=
  let p : ObjectProperty := ⟨i⟩
  if p.checkb o then
    if p ∈ o.object_properties then (some p, o)
    else (some p, { o with object_properties := p :: o.object_properties })
  else (none, o)

/-- `Ontology::subclass_exp`. -/
def Ontology.subclass_exp (o : Ontology) (superclass subclass : ClassExpression) :
    Option SubClass × Ontology :=
  let sc : SubClass := ⟨superclass, subclass⟩
  if sc.checkb o then
    if sc ∈ o.subclasses then (some sc, o)
    else (some sc, { o with subclasses := sc :: o.subclasses })
  else (none, o)

/-- `Ontology::subclass`: the atomic convenience wrapper. -/
def Ontology.subclass (o : Ontology) (superclass subclass : HornedOwl.Class) :
    Option SubClass × Ontology :=
  o.subclass_exp (ClassExpression.Class superclass) (ClassExpression.Class subclass)

/-- `Ontology::some_exp`. -/
def Ontology.some_exp (o : Ontology) (object_property : ObjectProperty)
    (filler : ClassExpression) : Option ClassExpression × Ontology :=
  let s : ClassExpression := ClassExpression.Some object_property filler
  if ClassExpression.checkb o s then
    if s ∈ o.somes then (some s, o)
    else (some s, { o with somes := s :: o.somes })
  else (none, o)

/-- `Ontology::some`: the atomic convenience wrapper. -/
def Ontology.someOf (o : Ontology) (object_property : ObjectProperty)
    (c : HornedOwl.Class) : Option ClassExpression × Ontology :=
  o.some_exp object_property (ClassExpression.Class c)

/-- `Ontology::direct_subclass_exp`: read-only query; filters the stored
axioms by structural equality on the superclass and projects the subclass. -/
def Ontology.direct_subclass_exp (o : Ontology) (c : ClassExpression) :
    List ClassExpression :=
  (o.subclasses.filter (fun sc => decide (sc.superclass = c))).map
    (fun sc => sc.subclass)

/-- `Ontology::direct_subclass`. -/
def Ontology.direct_subclass (o : Ontology) (c : HornedOwl.Class) :
    List ClassExpression :=
  o.direct_subclass_exp (ClassExpression.Class c)

/-- `Ontology::is_subclass_exp`: `iter().filter(..).next()` is `find?`,
then the source matches the option against `Some`/`None`. -/
def Ontology.is_subclass_exp (o : Ontology) (superclass subclass : ClassExpression) :
    Bool :=
  match o.subclasses.find?
      (fun sc => decide (sc.superclass = superclass) &&
                 decide (sc.subclass = subclass)) with
  | some _ => true
  | none => false

/-- `Ontology::is_subclass`. -/
def Ontology.is_subclass (o : Ontology) (superclass subclass : HornedOwl.Class) :
    Bool :=
  o.is_subclass_exp (ClassExpression.Class superclass)
    (ClassExpression.Class subclass)

/-! ## Reachable states

The mutating public methods of `Ontology`, the process-wide counter, and the
set of states reachable by any sequence of calls.  Because the source's
counter is a `static mut` shared by every instance in the process, a
`Process` holds all live instances together with the one counter. -/

/-- One call to a mutating public method of `Ontology` (returned values are
discarded; the read-only queries do not change state). -/
inductive Op where
  | iri (s : String)
  | defineClass (i : IRI)
  | defineObjectProperty (i : IRI)
  | subclass (superclass subclass : HornedOwl.Class)
  | subclass_exp (superclass subclass : ClassExpression)
  | someOf (object_property : ObjectProperty) (c : HornedOwl.Class)
  | some_exp (object_property : ObjectProperty) (filler : ClassExpression)

/-- Apply one method call to (ontology, shared counter).  Only `iri` can
move the counter; a failed (panicking) constructor leaves the ontology as
it was. -/
def applyOp : Ontology × Nat → Op → Ontology × Nat
  | (o, c), Op.iri s => ((o.iri c s).2.1, (o.iri c s).2.2)
  | (o, c), Op.defineClass i => ((o.defineClass i).2, c)
  | (o, c), Op.defineObjectProperty i => ((o.defineObjectProperty i).2, c)
  | (o, c), Op.subclass a b => ((o.subclass a b).2, c)
  | (o, c), Op.subclass_exp a b => ((o.subclass_exp a b).2, c)
  | (o, c), Op.someOf q k => ((o.someOf q k).2, c)
  | (o, c), Op.some_exp q f => ((o.some_exp q f).2, c)

/-- All ontology instances alive in one process, plus the shared
`static mut COUNTER`. -/
structure Process where
  onts : List Ontology
  counter : Nat
deriving DecidableEq

/-- Process start: no instances, counter at 0. -/
def Process.new : Process := ⟨[], 0⟩

/-- A process-level event: create a fresh instance (`Ontology::new`), or
call a mutating method on the `k`-th instance. -/
inductive POp where
  | newOnt
  | act (k : Nat) (op : Op)

/-- Process semantics of one event. -/
def Process.apply (p : Process) : POp → Process
  | POp.newOnt => ⟨p.onts ++ [Ontology.new], p.counter⟩
  | POp.act k op =>
      match p.onts[k]? with
      | none => p
      | some o =>
          ⟨p.onts.set k (applyOp (o, p.counter) op).1, (applyOp (o, p.counter) op).2⟩

/-- Process states reachable by any sequence of events. -/
inductive PReachable : Process → Prop where
  | init : PReachable Process.new
  | step (p : Process) (op : POp) : PReachable p → PReachable (p.apply op)

/-- An ontology state is reachable when it is an instance of a reachable
process. -/
def Reachable (o : Ontology) : Prop :=
  ∃ (p : Process) (k : Nat), PReachable p ∧ p.onts[k]? = some o

/-- The numeric (identifier) side of an instance's interning table. -/
def lefts (o : Ontology) : List Nat := o.id_str.map Prod.fst

/-- Per-instance structural invariant: the interning table is duplicate-free
on both sides and every deduplicated collection is duplicate-free; the
`and` collection is empty (no method ever inserts into it). -/
def Inv (o : Ontology) : Prop :=
  (o.id_str.map Prod.fst).Nodup ∧ (o.id_str.map Prod.snd).Nodup ∧
  o.classes.Nodup ∧ o.subclasses.Nodup ∧ o.object_properties.Nodup ∧
  o.somes.Nodup ∧ o.ands = []

/-- Process invariant: every instance satisfies `Inv`, every interned
identifier value is at most the shared counter, and distinct instances
have disjoint identifier sets. -/
def POk (p : Process) : Prop :=
  (∀ o ∈ p.onts, Inv o ∧ ∀ n ∈ lefts o, n ≤ p.counter) ∧
  (∀ (i j : Nat) (oi oj : Ontology), i ≠ j →
    p.onts[i]? = some oi → p.onts[j]? = some oj →
    ∀ n, n ∈ lefts oi → n ∉ lefts oj)

/-! ## Concrete scenarios

Deterministic executions used by the example halves of the claims and by
the witnesses.  With the counter starting at 0, the names interned first,
second and third receive identifiers 1, 2 and 3. -/

/-- Run a list of process events from the fresh process. -/
def runP (l : List POp) : Process := l.foldl Process.apply Process.new

/-- Atomic class expression over identifier 1 (interned name "A"). -/
def ceA : ClassExpression := ClassExpression.Class (Class.mk (IRI.mk 1))

/-- Atomic class expression over identifier 2 (interned name "B"). -/
def ceB : ClassExpression := ClassExpression.Class (Class.mk (IRI.mk 2))

/-- Atomic class expression over identifier 3 (interned name "C"). -/
def ceC : ClassExpression := ClassExpression.Class (Class.mk (IRI.mk 3))

/-- Events: one instance, classes A, B, C, axioms A⊑B and B⊑C. -/
def chainOps : List POp :=
  [POp.newOnt,
   POp.act 0 (Op.iri "A"), POp.act 0 (Op.iri "B"), POp.act 0 (Op.iri "C"),
   POp.act 0 (Op.defineClass (IRI.mk 1)),
   POp.act 0 (Op.defineClass (IRI.mk 2)),
   POp.act 0 (Op.defineClass (IRI.mk 3)),
   POp.act 0 (Op.subclass (Class.mk (IRI.mk 1)) (Class.mk (IRI.mk 2))),
   POp.act 0 (Op.subclass (Class.mk (IRI.mk 2)) (Class.mk (IRI.mk 3)))]

/-- The instance holding exactly the axioms A⊑B and B⊑C. -/
def demoChain : Ontology := ((runP chainOps).onts).headD Ontology.new

/-- Events: one instance, classes A, B, C, axioms A⊑B and A⊑C. -/
def forkOps : List POp :=
  [POp.newOnt,
   POp.act 0 (Op.iri "A"), POp.act 0 (Op.iri "B"), POp.act 0 (Op.iri "C"),
   POp.act 0 (Op.defineClass (IRI.mk 1)),
   POp.act 0 (Op.defineClass (IRI.mk 2)),
   POp.act 0 (Op.defineClass (IRI.mk 3)),
   POp.act 0 (Op.subclass (Class.mk (IRI.mk 1)) (Class.mk (IRI.mk 2))),
   POp.act 0 (Op.subclass (Class.mk (IRI.mk 1)) (Class.mk (IRI.mk 3)))]

/-- The instance holding exactly the axioms A⊑B and A⊑C. -/
def demoFork : Ontology := ((runP forkOps).onts).headD Ontology.new

/-- Events: one instance that interned the single name "a". -/
def internOps : List POp := [POp.newOnt, POp.act 0 (Op.iri "a")]

/-- An instance whose interning table is exactly `[(1, "a")]`. -/
def demoIntern : Ontology := ((runP internOps).onts).headD Ontology.new

/-- Events: two instances, the first interning "a", the second "b". -/
def twinOps : List POp :=
  [POp.newOnt, POp.newOnt, POp.act 0 (Op.iri "a"), POp.act 1 (Op.iri "b")]

/-- First of the two twin instances (table `[(1, "a")]`). -/
def demoTwinA : Ontology := ((runP twinOps).onts).headD Ontology.new

/-- Second of the two twin instances (table `[(2, "b")]`). -/
def demoTwinB : Ontology := ((runP twinOps).onts).getD 1 Ontology.new

/-! ## Invariant preservation -/

lemma iri_found (o : Ontology) (c : Nat) (s : String) (n : Nat)
    (h : getByRight o.id_str s = some n) :
    o.iri c s = (IRI.mk n, o, c) := by
  unfold Ontology.iri; rw [h]

lemma iri_fresh (o : Ontology) (c : Nat) (s : String)
    (h : getByRight o.id_str s = none) :
    o.iri c s =
      (IRI.mk (c + 1), { o with id_str := bimapInsert o.id_str (c + 1) s }, c + 1) := by
  unfold Ontology.iri; rw [h]

lemma defineClass_id_str (o : Ontology) (i : IRI) :
    ((o.defineClass i).2).id_str = o.id_str := by
  unfold Ontology.defineClass; dsimp only; split_ifs <;> rfl

lemma defineObjectProperty_id_str (o : Ontology) (i : IRI) :
    ((o.defineObjectProperty i).2).id_str = o.id_str := by
  unfold Ontology.defineObjectProperty; dsimp only; split_ifs <;> rfl

lemma subclass_exp_id_str (o : Ontology) (a b : ClassExpression) :
    ((o.subclass_exp a b).2).id_str = o.id_str := by
  unfold Ontology.subclass_exp; dsimp only; split_ifs <;> rfl

lemma some_exp_id_str (o : Ontology) (q : ObjectProperty) (f : ClassExpression) :
    ((o.some_exp q f).2).id_str = o.id_str := by
  unfold Ontology.some_exp; dsimp only; split_ifs <;> rfl

lemma nodup_map_fst_bimapInsert (m : List (Nat × String)) (n : Nat) (s : String)
    (h : (m.map Prod.fst).Nodup) :
    ((bimapInsert m n s).map Prod.fst).Nodup := by
  unfold bimapInsert
  rw [List.map_cons]
  refine List.nodup_cons.2 ⟨?_, ?_⟩
  · intro hmem
    simp only [List.mem_map, List.mem_filter, Bool.and_eq_true, bne_iff_ne, ne_eq] at hmem
    obtain ⟨q, ⟨hqm, hq1, hq2⟩, hfst⟩ := hmem
    exact hq1 hfst
  · exact List.Nodup.sublist (List.Sublist.map Prod.fst (List.filter_sublist m)) h

lemma nodup_map_snd_bimapInsert (m : List (Nat × String)) (n : Nat) (s : String)
    (h : (m.map Prod.snd).Nodup) :
    ((bimapInsert m n s).map Prod.snd).Nodup := by
  unfold bimapInsert
  rw [List.map_cons]
  refine List.nodup_cons.2 ⟨?_, ?_⟩
  · intro hmem
    simp only [List.mem_map, List.mem_filter, Bool.and_eq_true, bne_iff_ne, ne_eq] at hmem
    obtain ⟨q, ⟨hqm, hq1, hq2⟩, hsnd⟩ := hmem
    exact hq2 hsnd
  · exact List.Nodup.sublist (List.Sublist.map Prod.snd (List.filter_sublist m)) h

lemma Inv_defineClass (o : Ontology) (i : IRI) (h : Inv o) :
    Inv (o.defineClass i).2 := by
  unfold Ontology.defineClass; dsimp only
  split_ifs with h1 h2
  · exact h
  · obtain ⟨a, b, cc, d, e, f, g⟩ := h
    exact ⟨a, b, List.nodup_cons.2 ⟨h2, cc⟩, d, e, f, g⟩
  · exact h

lemma Inv_defineObjectProperty (o : Ontology) (i : IRI) (h : Inv o) :
    Inv (o.defineObjectProperty i).2 := by
  unfold Ontology.defineObjectProperty; dsimp only
  split_ifs with h1 h2
  · exact h
  · obtain ⟨a, b, cc, d, e, f, g⟩ := h
    exact ⟨a, b, cc, d, List.nodup_cons.2 ⟨h2, e⟩, f, g⟩
  · exact h

lemma Inv_subclass_exp (o : Ontology) (x y : ClassExpression) (h : Inv o) :
    Inv (o.subclass_exp x y).2 := by
  unfold Ontology.subclass_exp; dsimp only
  split_ifs with h1 h2
  · exact h
  · obtain ⟨a, b, cc, d, e, f, g⟩ := h
    exact ⟨a, b, cc, List.nodup_cons.2 ⟨h2, d⟩, e, f, g⟩
  · exact h

lemma Inv_some_exp (o : Ontology) (q : ObjectProperty) (f : ClassExpression)
    (h : Inv o) : Inv (o.some_exp q f).2 := by
  unfold Ontology.some_exp; dsimp only
  split_ifs with h1 h2
  · exact h
  · obtain ⟨a, b, cc, d, e, ff, g⟩ := h
    exact ⟨a, b, cc, d, e, List.nodup_cons.2 ⟨h2, ff⟩, g⟩
  · exact h

lemma Inv_iri (o : Ontology) (c : Nat) (s : String) (h : Inv o) :
    Inv (o.iri c s).2.1 := by
  cases hg : getByRight o.id_str s with
  | some n => rw [iri_found o c s n hg]; exact h
  | none =>
      rw [iri_fresh o c s hg]
      obtain ⟨a, b, rest⟩ := h
      exact ⟨nodup_map_fst_bimapInsert _ _ _ a, nodup_map_snd_bimapInsert _ _ _ b, rest⟩

lemma Inv_applyOp (o : Ontology) (c : Nat) (op : Op) (h : Inv o) :
    Inv (applyOp (o, c) op).1 := by
  cases op with
  | iri s => exact Inv_iri o c s h
  | defineClass i => exact Inv_defineClass o i h
  | defineObjectProperty i => exact Inv_defineObjectProperty o i h
  | subclass a b => exact Inv_subclass_exp o _ _ h
  | subclass_exp a b => exact Inv_subclass_exp o a b h
  | someOf q k => exact Inv_some_exp o q _ h
  | some_exp q f => exact Inv_some_exp o q f h

lemma applyOp_id_str_shape (o : Ontology) (c : Nat) (op : Op) :
    ((applyOp (o, c) op).1.id_str = o.id_str ∧ (applyOp (o, c) op).2 = c) ∨
    (∃ s, getByRight o.id_str s = none ∧
      (applyOp (o, c) op).1.id_str = bimapInsert o.id_str (c + 1) s ∧
      (applyOp (o, c) op).2 = c + 1) := by
  cases op with
  | iri s =>
      cases hg : getByRight o.id_str s with
      | some n => left; rw [applyOp, iri_found o c s n hg]; exact ⟨rfl, rfl⟩
      | none =>
          right
          refine ⟨s, hg, ?_, ?_⟩ <;> rw [applyOp, iri_fresh o c s hg]
  | defineClass i => exact Or.inl ⟨defineClass_id_str o i, rfl⟩
  | defineObjectProperty i => exact Or.inl ⟨defineObjectProperty_id_str o i, rfl⟩
  | subclass a b => exact Or.inl ⟨subclass_exp_id_str o _ _, rfl⟩
  | subclass_exp a b => exact Or.inl ⟨subclass_exp_id_str o a b, rfl⟩
  | someOf q k => exact Or.inl ⟨some_exp_id_str o q _, rfl⟩
  | some_exp q f => exact Or.inl ⟨some_exp_id_str o q f, rfl⟩

lemma mem_lefts_bimapInsert (m : List (Nat × String)) (n : Nat) (s : String)
    (x : Nat) (h : x ∈ (bimapInsert m n s).map Prod.fst) :
    x = n ∨ x ∈ m.map Prod.fst := by
  unfold bimapInsert at h
  rw [List.map_cons] at h
  rcases List.mem_cons.1 h with h | h
  · exact Or.inl h
  · exact Or.inr (((List.filter_sublist m).map Prod.fst).mem h)

lemma applyOp_counter_le (o : Ontology) (c : Nat) (op : Op) :
    c ≤ (applyOp (o, c) op).2 := by
  rcases applyOp_id_str_shape o c op with ⟨_, h⟩ | ⟨s, _, _, h⟩ <;> omega

lemma applyOp_lefts (o : Ontology) (c : Nat) (op : Op) (x : Nat)
    (hx : x ∈ lefts (applyOp (o, c) op).1) :
    x ∈ lefts o ∨ (c < x ∧ x ≤ (applyOp (o, c) op).2) := by
  rcases applyOp_id_str_shape o c op with ⟨h1, h2⟩ | ⟨s, hg, h1, h2⟩
  · left; unfold lefts at hx ⊢; rw [h1] at hx; exact hx
  · unfold lefts at hx ⊢
    rw [h1] at hx
    rcases mem_lefts_bimapInsert _ _ _ _ hx with h | h
    · right; omega
    · left; exact h

lemma Inv_new : Inv Ontology.new := by
  refine ⟨?_, ?_, ?_, ?_, ?_, ?_, ?_⟩ <;> simp [Ontology.new]

lemma POk_new : POk Process.new := by
  constructor
  · intro o ho; simp [Process.new] at ho
  · intro i j oi oj hne hi hj
    simp [Process.new] at hi

lemma POk_apply (p : Process) (pop : POp) (h : POk p) : POk (p.apply pop) := by
  obtain ⟨h1, h2⟩ := h
  cases pop with
  | newOnt =>
      constructor
      · intro o ho
        simp only [Process.apply] at ho ⊢
        rcases List.mem_append.1 ho with ho | ho
        · exact h1 o ho
        · rw [List.mem_singleton] at ho; subst ho
          exact ⟨Inv_new, by intro n hn; simp [lefts, Ontology.new] at hn⟩
      · intro i j oi oj hne hi hj n hni
        simp only [Process.apply] at hi hj
        have getcase :
            ∀ (m : Nat) (om : Ontology),
              (p.onts ++ [Ontology.new])[m]? = some om →
              p.onts[m]? = some om ∨ om = Ontology.new := by
          intro m om hm
          rcases Nat.lt_or_ge m p.onts.length with hlt | hge
          · left; rw [List.getElem?_append_left hlt] at hm; exact hm
          · right
            rw [List.getElem?_append_right hge] at hm
            rcases Nat.eq_or_lt_of_le hge with heq | hlt2
            · rw [← heq, Nat.sub_self] at hm
              simpa using hm.symm
            · have : m - p.onts.length ≥ 1 := by omega
              rcases Nat.exists_eq_add_of_le this with ⟨w, hw⟩
              rw [Nat.add_comm] at hw
              rw [hw] at hm
              rw [List.getElem?_cons_succ] at hm
              simp at hm
        rcases getcase i oi hi with hi' | hi'
        · rcases getcase j oj hj with hj' | hj'
          · exact h2 i j oi oj hne hi' hj' n hni
          · subst hj'; simp [lefts, Ontology.new]
        · subst hi'; simp [lefts, Ontology.new] at hni
  | act k op =>
      cases hk : p.onts[k]? with
      | none =>
          simp only [Process.apply, hk]
          exact ⟨h1, h2⟩
      | some o =>
          simp only [Process.apply, hk]
          have hmem : o ∈ p.onts := List.getElem?_mem hk
          have hInv : Inv o := (h1 o hmem).1
          have hbound := (h1 o hmem).2
          have hcle := applyOp_counter_le o p.counter op
          constructor
          · intro o2 ho2
            rcases List.mem_or_eq_of_mem_set ho2 with ho2 | ho2
            · obtain ⟨hI, hb⟩ := h1 o2 ho2
              exact ⟨hI, fun n hn => le_trans (hb n hn) hcle⟩
            · subst ho2
              refine ⟨Inv_applyOp o p.counter op hInv, ?_⟩
              intro n hn
              rcases applyOp_lefts o p.counter op n hn with hcase | ⟨_, hcase⟩
              · exact le_trans (hbound n hcase) hcle
              · exact hcase
          · intro i j oi oj hne hi hj n hni
            have hklen : k < p.onts.length := by
              have := List.getElem?_eq_some_iff.1 hk
              exact this.1
            by_cases hik : i = k
            · subst hik
              rw [List.getElem?_set_self (by simpa using hklen)] at hi
              have hoi : oi = (applyOp (o, p.counter) op).1 :=
                (Option.some.injEq _ _ ▸ hi).symm
              subst hoi
              have hjk : i ≠ j := hne
              rw [List.getElem?_set_ne hjk] at hj
              intro hnj
              have hnj_le : n ≤ p.counter := (h1 oj (List.getElem?_mem hj)).2 n hnj
              rcases applyOp_lefts o p.counter op n hni with hcase | ⟨hgt, _⟩
              · exact h2 i j o oj hne hk hj n hcase hnj
              · omega
            · by_cases hjk : j = k
              · subst hjk
                rw [List.getElem?_set_self (by simpa using hklen)] at hj
                have hoj : oj = (applyOp (o, p.counter) op).1 :=
                  (Option.some.injEq _ _ ▸ hj).symm
                subst hoj
                rw [List.getElem?_set_ne (fun hc => hik hc.symm)] at hi
                intro hnj
                have hni_le : n ≤ p.counter := (h1 oi (List.getElem?_mem hi)).2 n hni
                rcases applyOp_lefts o p.counter op n hnj with hcase | ⟨hgt, _⟩
                · exact h2 i j oi o hne hi hk n hni hcase
                · omega
              · rw [List.getElem?_set_ne (fun hc => hik hc.symm)] at hi
                rw [List.getElem?_set_ne (fun hc => hjk hc.symm)] at hj
                exact h2 i j oi oj hne hi hj n hni

lemma preachable_pok (p : Process) (h : PReachable p) : POk p := by
  induction h with
  | init => exact POk_new
  | step p op hp ih => exact POk_apply p op ih

lemma reachable_inv (o : Ontology) (h : Reachable o) : Inv o := by
  obtain ⟨p, k, hp, hk⟩ := h
  exact ((preachable_pok p hp).1 o (List.getElem?_mem hk)).1

lemma preachable_foldl (l : List POp) (p : Process) (h : PReachable p) :
    PReachable (l.foldl Process.apply p) := by
  induction l generalizing p with
  | nil => exact h
  | cons op t ih => exact ih (p.apply op) (PReachable.step p op h)

lemma preachable_runP (l : List POp) : PReachable (runP l) :=
  preachable_foldl l Process.new PReachable.init

/-! ## Interner lemmas -/

lemma contains_id_iff_isSome (o : Ontology) (n : Nat) :
    o.contains_id n = true ↔ (o.iri_to_str (IRI.mk n)).isSome = true := by
  unfold Ontology.contains_id containsLeft Ontology.iri_to_str getByLeft
  rw [Option.isSome_map']
  constructor
  · intro h; exact List.find?_isSome.2 (List.any_eq_true.1 h)
  · intro h; exact List.any_eq_true.2 (List.find?_isSome.1 h)

lemma getByRight_mem (m : List (Nat × String)) (s : String) (n : Nat)
    (h : getByRight m s = some n) : (n, s) ∈ m := by
  unfold getByRight at h
  cases hf : m.find? (fun p => p.2 == s) with
  | none => rw [hf] at h; simp at h
  | some q =>
      rw [hf] at h
      simp only [Option.map_some', Option.some.injEq] at h
      have hqm := List.mem_of_find?_eq_some hf
      have hqs : q.2 = s := by
        have := List.find?_some hf
        simpa using this
      have hq : q = (n, s) := by
        cases q with
        | mk a b => simp at h hqs; rw [h, hqs]
      rw [← hq]; exact hqm

lemma getByLeft_of_mem_nodup (m : List (Nat × String)) (n : Nat) (s : String)
    (hnd : (m.map Prod.fst).Nodup) (hm : (n, s) ∈ m) :
    getByLeft m n = some s := by
  unfold getByLeft
  cases hf : m.find? (fun p => p.1 == n) with
  | none =>
      rw [List.find?_eq_none] at hf
      have := hf (n, s) hm
      simp at this
  | some q =>
      have hqm := List.mem_of_find?_eq_some hf
      have hq1 : q.1 = n := by
        have := List.find?_some hf
        simpa using this
      have hq : q = (n, s) :=
        List.inj_on_of_nodup_map hnd hqm hm (by simpa using hq1)
      rw [hq]
      rfl

lemma getByRight_eq_none_of_not_contains (m : List (Nat × String)) (s : String)
    (h : containsRight m s = false) : getByRight m s = none := by
  unfold containsRight at h
  unfold getByRight
  rw [Option.map_eq_none']
  rw [List.find?_eq_none]
  intro x hx
  exact (List.any_eq_false.1 h) x hx

lemma getByRight_isSome_of_contains (m : List (Nat × String)) (s : String)
    (h : containsRight m s = true) : ∃ n, getByRight m s = some n := by
  unfold containsRight at h
  have : (m.find? (fun p => p.2 == s)).isSome :=
    List.find?_isSome.2 (List.any_eq_true.1 h)
  cases hf : m.find? (fun p => p.2 == s) with
  | none => rw [hf] at this; simp at this
  | some q => exact ⟨q.1, by unfold getByRight; rw [hf]; rfl⟩

/-! ## Constructor branch lemmas -/

lemma defineClass_mem (o : Ontology) (i : IRI) (hc : o.contains_id i.val = true)
    (hm : Class.mk i ∈ o.classes) :
    o.defineClass i = (some (Class.mk i), o) := by
  have hc' : Class.checkb (Class.mk i) o = true := hc
  unfold Ontology.defineClass
  dsimp only
  rw [if_pos hc', if_pos hm]

lemma defineClass_not_mem (o : Ontology) (i : IRI) (hc : o.contains_id i.val = true)
    (hm : Class.mk i ∉ o.classes) :
    o.defineClass i =
      (some (Class.mk i), { o with classes := Class.mk i :: o.classes }) := by
  have hc' : Class.checkb (Class.mk i) o = true := hc
  unfold Ontology.defineClass
  dsimp only
  rw [if_pos hc', if_neg hm]

lemma defineClass_fail (o : Ontology) (i : IRI) (hc : o.contains_id i.val = false) :
    o.defineClass i = (none, o) := by
  have hc' : ¬ Class.checkb (Class.mk i) o = true := by
    have : Class.checkb (Class.mk i) o = false := hc
    simp [this]
  unfold Ontology.defineClass
  dsimp only
  rw [if_neg hc']

lemma defineObjectProperty_fail (o : Ontology) (i : IRI)
    (hc : o.contains_id i.val = false) :
    o.defineObjectProperty i = (none, o) := by
  have hc' : ¬ ObjectProperty.checkb (ObjectProperty.mk i) o = true := by
    have : ObjectProperty.checkb (ObjectProperty.mk i) o = false := hc
    simp [this]
  unfold Ontology.defineObjectProperty
  dsimp only
  rw [if_neg hc']

lemma subclass_exp_fail (o : Ontology) (x y : ClassExpression)
    (hc : SubClass.checkb (SubClass.mk x y) o = false) :
    o.subclass_exp x y = (none, o) := by
  have hc' : ¬ SubClass.checkb (SubClass.mk x y) o = true := by simp [hc]
  unfold Ontology.subclass_exp
  dsimp only
  rw [if_neg hc']

lemma some_exp_fail (o : Ontology) (q : ObjectProperty) (f : ClassExpression)
    (hc : ClassExpression.checkb o (ClassExpression.Some q f) = false) :
    o.some_exp q f = (none, o) := by
  have hc' : ¬ ClassExpression.checkb o (ClassExpression.Some q f) = true := by
    simp [hc]
  unfold Ontology.some_exp
  dsimp only
  rw [if_neg hc']

lemma checkb_class (o : Ontology) (c : HornedOwl.Class) :
    ClassExpression.checkb o (ClassExpression.Class c) = o.contains_id c.iri.val := rfl

lemma checkb_some (o : Ontology) (q : ObjectProperty) (f : ClassExpression) :
    ClassExpression.checkb o (ClassExpression.Some q f) =
      (o.contains_id q.iri.val && ClassExpression.checkb o f) := rfl

/-! ## Claims -/

/-- C1: Cross-instance rejection.  If identifier `i` is interned by `o1` but
not by `o2`, then `o1` and `o2` are distinct instances and every constructor
method of `o2` handed an entity built from `i` fails with
ForeignReferenceError (modelled by the `none` result) and returns `o2` with
its interning table and all collections unchanged: no partial insertion
occurs. -/
theorem cross_instance_rejection (o1 o2 : Ontology) (i : IRI)
    (h1 : o1.contains_id i.val = true) (h2 : o2.contains_id i.val = false) :
    o1 ≠ o2 ∧
    o2.defineClass i = (none, o2) ∧
    o2.defineObjectProperty i = (none, o2) ∧
    (∀ sub : ClassExpression,
      o2.subclass_exp (ClassExpression.Class (Class.mk i)) sub = (none, o2)) ∧
    (∀ sup : ClassExpression,
      o2.subclass_exp sup (ClassExpression.Class (Class.mk i)) = (none, o2)) ∧
    (∀ f : ClassExpression, o2.some_exp (ObjectProperty.mk i) f = (none, o2)) := by
  have hne : o1 ≠ o2 := by
    intro he
    rw [he, h2] at h1
    exact Bool.noConfusion h1
  refine ⟨hne, defineClass_fail o2 i h2, defineObjectProperty_fail o2 i h2,
    ?_, ?_, ?_⟩
  · intro sub
    apply subclass_exp_fail
    unfold SubClass.checkb
    simp [checkb_class, h2]
  · intro sup
    apply subclass_exp_fail
    unfold SubClass.checkb
    simp [checkb_class, h2]
  · intro f
    apply some_exp_fail
    simp [checkb_some, h2]

/-- Witness for C1: `demoIntern` interned identifier 1, the fresh instance
did not, and `defineClass 1` on the fresh instance fails without mutation. -/
theorem cross_instance_rejection_witness :
    Ontology.new.defineClass (IRI.mk 1) = (none, Ontology.new) :=
  (cross_instance_rejection demoIntern Ontology.new (IRI.mk 1)
    (by decide) (by decide)).2.1

/-- C2: Interning idempotence.  On any reachable instance, calling `iri`
twice with the same name returns the same identifier and the second call
changes nothing (same ontology, same counter: nothing is allocated), and
`iri_to_str` of the returned identifier gives back the name. -/
theorem interning_idempotent (o : Ontology) (c : Nat) (s : String)
    (h : Reachable o) :
    (o.iri c s).2.1.iri (o.iri c s).2.2 s = o.iri c s ∧
    (o.iri c s).2.1.iri_to_str (o.iri c s).1 = some s := by
  obtain ⟨hfst, _⟩ := reachable_inv o h
  cases hg : getByRight o.id_str s with
  | some n =>
      rw [iri_found o c s n hg]
      constructor
      · exact iri_found o c s n hg
      · show getByLeft o.id_str n = some s
        exact getByLeft_of_mem_nodup o.id_str n s hfst (getByRight_mem o.id_str s n hg)
  | none =>
      rw [iri_fresh o c s hg]
      have hg2 : getByRight (bimapInsert o.id_str (c + 1) s) s = some (c + 1) := by
        unfold getByRight bimapInsert
        rw [List.find?_cons_of_pos _ (by simp)]
        rfl
      constructor
      · exact iri_found _ (c + 1) s (c + 1) hg2
      · show getByLeft (bimapInsert o.id_str (c + 1) s) (c + 1) = some s
        unfold getByLeft bimapInsert
        rw [List.find?_cons_of_pos _ (by simp)]
        rfl

/-- Witness for C2 at the freshly created instance and the name "a". -/
theorem interning_idempotent_witness :
    (Ontology.new.iri 0 "a").2.1.iri (Ontology.new.iri 0 "a").2.2 "a" =
      Ontology.new.iri 0 "a" ∧
    (Ontology.new.iri 0 "a").2.1.iri_to_str (Ontology.new.iri 0 "a").1 =
      some "a" :=
  interning_idempotent Ontology.new 0 "a"
    ⟨runP [POp.newOnt], 0, preachable_runP _, by decide⟩

/-- C3: Bijection invariant.  In every reachable state the forward and
reverse interning maps are exact inverses: `contains_id` holds exactly when
`iri_to_str` returns a name, no name is bound to two identifiers, and no
identifier is bound to two names. -/
theorem interning_bijection (o : Ontology) (h : Reachable o) :
    (∀ n : Nat, o.contains_id n = true ↔ (o.iri_to_str (IRI.mk n)).isSome = true) ∧
    (∀ (n1 n2 : Nat) (s : String),
      (n1, s) ∈ o.id_str → (n2, s) ∈ o.id_str → n1 = n2) ∧
    (∀ (n : Nat) (s1 s2 : String),
      (n, s1) ∈ o.id_str → (n, s2) ∈ o.id_str → s1 = s2) := by
  obtain ⟨hfst, hsnd, _⟩ := reachable_inv o h
  refine ⟨fun n => contains_id_iff_isSome o n, ?_, ?_⟩
  · intro n1 n2 s hm1 hm2
    have heq := List.inj_on_of_nodup_map hsnd hm1 hm2 rfl
    have h2 := congrArg Prod.fst heq
    simpa using h2
  · intro n s1 s2 hm1 hm2
    have heq := List.inj_on_of_nodup_map hfst hm1 hm2 rfl
    have h2 := congrArg Prod.snd heq
    simpa using h2

/-- Witness for C3 at the instance that interned the single name "a". -/
theorem interning_bijection_witness :
    demoIntern.contains_id 1 = true ↔
      (demoIntern.iri_to_str (IRI.mk 1)).isSome = true :=
  (interning_bijection demoIntern
    ⟨runP internOps, 0, preachable_runP _, by decide⟩).1 1

/-- C4: Entity deduplication.  For an identifier interned in a reachable
instance, two consecutive `defineClass` calls return the same structurally
equal `Class`, the second call changes nothing, and afterwards the class
collection holds exactly one `Class` wrapping that identifier. -/
theorem class_deduplication (o : Ontology) (i : IRI) (h : Reachable o)
    (hi : o.contains_id i.val = true) :
    ∃ (c : HornedOwl.Class) (o1 : Ontology),
      o.defineClass i = (some c, o1) ∧
      o1.defineClass i = (some c, o1) ∧
      c = Class.mk i ∧
      List.count (Class.mk i) o1.classes = 1 := by
  obtain ⟨_, _, hcls, _⟩ := reachable_inv o h
  by_cases hmem : Class.mk i ∈ o.classes
  · exact ⟨Class.mk i, o, defineClass_mem o i hi hmem, defineClass_mem o i hi hmem,
      rfl, List.count_eq_one_of_mem hcls hmem⟩
  · refine ⟨Class.mk i, { o with classes := Class.mk i :: o.classes },
      defineClass_not_mem o i hi hmem, ?_, rfl, ?_⟩
    · exact defineClass_mem _ i hi (List.mem_cons_self _ _)
    · show List.count (Class.mk i) (Class.mk i :: o.classes) = 1
      rw [List.count_cons_self, List.count_eq_zero.2 hmem]

/-- Witness for C4 at the instance that interned "a" as identifier 1. -/
theorem class_deduplication_witness :
    ∃ (c : HornedOwl.Class) (o1 : Ontology),
      demoIntern.defineClass (IRI.mk 1) = (some c, o1) ∧
      o1.defineClass (IRI.mk 1) = (some c, o1) ∧
      c = Class.mk (IRI.mk 1) ∧
      List.count (Class.mk (IRI.mk 1)) o1.classes = 1 :=
  class_deduplication demoIntern (IRI.mk 1)
    ⟨runP internOps, 0, preachable_runP _, by decide⟩ (by decide)

/-- C5: Recursive validation of `Some`.  Checking a `Some` expression is
compositional and depth-first: it equals the conjunction of the object
property's membership test and the filler's recursive check; in particular
it fails whenever the filler fails even though the object property is
valid. -/
theorem some_check_compositional (o : Ontology) (q : ObjectProperty)
    (f : ClassExpression) :
    ClassExpression.checkb o (ClassExpression.Some q f) =
      (o.contains_id q.iri.val && ClassExpression.checkb o f) ∧
    (o.contains_id q.iri.val = true → ClassExpression.checkb o f = false →
      ClassExpression.checkb o (ClassExpression.Some q f) = false) :=
  ⟨checkb_some o q f, fun _ h2 => by rw [checkb_some, h2, Bool.and_false]⟩

/-- Witness for C5: on the instance that interned only identifier 1, a
`Some` over the valid property 1 with a foreign filler (identifier 2)
fails validation. -/
theorem some_check_compositional_witness :
    ClassExpression.checkb demoIntern
      (ClassExpression.Some (ObjectProperty.mk (IRI.mk 1))
        (ClassExpression.Class (Class.mk (IRI.mk 2)))) = false :=
  (some_check_compositional demoIntern (ObjectProperty.mk (IRI.mk 1))
      (ClassExpression.Class (Class.mk (IRI.mk 2)))).2 (by decide) (by decide)

/-- C6: Direct-only subsumption test.  `is_subclass_exp` is true exactly
when a stored SubClass axiom has that exact pair; on the instance with
axioms A⊑B and B⊑C it answers true for (A,B) and (B,C) but false for
(A,C): no transitive inference. -/
theorem is_subclass_direct_only :
    (∀ (o : Ontology) (x y : ClassExpression),
        o.is_subclass_exp x y = true ↔ SubClass.mk x y ∈ o.subclasses) ∧
    demoChain.is_subclass_exp ceA ceB = true ∧
    demoChain.is_subclass_exp ceB ceC = true ∧
    demoChain.is_subclass_exp ceA ceC = false := by
  refine ⟨?_, by decide, by decide, by decide⟩
  intro o x y
  unfold Ontology.is_subclass_exp
  cases hf : o.subclasses.find?
      (fun sc => decide (sc.superclass = x) && decide (sc.subclass = y)) with
  | some sc =>
      constructor
      · intro _
        have hmem := List.mem_of_find?_eq_some hf
        have hp := List.find?_some hf
        simp only [Bool.and_eq_true, decide_eq_true_eq] at hp
        have hsc : sc = SubClass.mk x y := by
          cases sc with
          | mk a b =>
              simp only at hp
              rw [hp.1, hp.2]
        rw [← hsc]
        exact hmem
      · intro _
        rfl
  | none =>
      constructor
      · intro hc
        exact Bool.noConfusion hc
      · intro hmem
        rw [List.find?_eq_none] at hf
        have := hf (SubClass.mk x y) hmem
        simp at this

/-- C7: Direct-subclass query.  `direct_subclass_exp` returns exactly the
`subclass` components of the stored axioms whose `superclass` equals the
argument (the query returns a list and never mutates the instance); on the
instance with axioms A⊑B and A⊑C the answers for A form the set {B, C} and
the answer for B is empty. -/
theorem direct_subclasses_exact :
    (∀ (o : Ontology) (e x : ClassExpression),
        x ∈ o.direct_subclass_exp e ↔ SubClass.mk e x ∈ o.subclasses) ∧
    (∀ y : ClassExpression,
        y ∈ demoFork.direct_subclass_exp ceA ↔ (y = ceB ∨ y = ceC)) ∧
    demoFork.direct_subclass_exp ceB = [] := by
  refine ⟨?_, ?_, by decide⟩
  · intro o e x
    unfold Ontology.direct_subclass_exp
    rw [List.mem_map]
    constructor
    · rintro ⟨sc, hsc, hx⟩
      rw [List.mem_filter] at hsc
      obtain ⟨hmem, hsup⟩ := hsc
      rw [decide_eq_true_eq] at hsup
      have hsc2 : sc = SubClass.mk e x := by
        cases sc with
        | mk a b =>
            simp only at hsup hx
            rw [hsup, hx]
      rw [← hsc2]
      exact hmem
    · intro hmem
      refine ⟨SubClass.mk e x, ?_, rfl⟩
      rw [List.mem_filter]
      exact ⟨hmem, by simp⟩
  · intro y
    have hl : demoFork.direct_subclass_exp ceA = [ceC, ceB] := by decide
    rw [hl]
    simp only [List.mem_cons, List.not_mem_nil, or_false]
    tauto

/-- C8: Global monotone counter.  In any reachable process, interning a name
absent from the called instance allocates the identifier COUNTER+1, which is
strictly greater than every identifier value previously allocated by any
instance in the process, and bumps the shared counter; interning a present
name allocates nothing: the instance and the shared counter are unchanged. -/
theorem global_counter_monotone (p : Process) (hp : PReachable p) (k : Nat)
    (o : Ontology) (ho : p.onts[k]? = some o) (s : String) :
    (o.contains_iri s = false →
      (o.iri p.counter s).1.val = p.counter + 1 ∧
      (∀ o2 ∈ p.onts, ∀ n ∈ lefts o2, n < (o.iri p.counter s).1.val) ∧
      (o.iri p.counter s).2.2 = p.counter + 1) ∧
    (o.contains_iri s = true →
      (o.iri p.counter s).2.1 = o ∧ (o.iri p.counter s).2.2 = p.counter) := by
  obtain ⟨hall, _⟩ := preachable_pok p hp
  constructor
  · intro hfresh
    have hg : getByRight o.id_str s = none :=
      getByRight_eq_none_of_not_contains o.id_str s hfresh
    rw [iri_fresh o p.counter s hg]
    refine ⟨rfl, ?_, rfl⟩
    intro o2 ho2 n hn
    have := (hall o2 ho2).2 n hn
    show n < p.counter + 1
    omega
  · intro hpres
    obtain ⟨n, hg⟩ := getByRight_isSome_of_contains o.id_str s hpres
    rw [iri_found o p.counter s n hg]
    exact ⟨rfl, rfl⟩

/-- Witness for C8 on the two-instance process: a fresh name on the first
twin allocates counter+1 = 3 and bumps the counter; the present name "a"
allocates nothing. -/
theorem global_counter_monotone_witness :
    (demoTwinA.iri (runP twinOps).counter "c").1.val = (runP twinOps).counter + 1 ∧
    (demoTwinA.iri (runP twinOps).counter "c").2.2 = (runP twinOps).counter + 1 ∧
    (demoTwinA.iri (runP twinOps).counter "a").2.1 = demoTwinA ∧
    (demoTwinA.iri (runP twinOps).counter "a").2.2 = (runP twinOps).counter := by
  have hf := (global_counter_monotone (runP twinOps) (preachable_runP twinOps) 0
      demoTwinA (by decide) "c").1 (by decide)
  have hp := (global_counter_monotone (runP twinOps) (preachable_runP twinOps) 0
      demoTwinA (by decide) "a").2 (by decide)
  exact ⟨hf.1, hf.2.2, hp.1, hp.2⟩

/-- C9 counterexample: the claim that some numeric identifier value is
issued by two distinct instances of one process is false — in every
reachable process the identifier sets of distinct instances are disjoint,
because the single shared counter never reissues a value. -/
theorem identifier_overlap_counterexample :
    ¬ ∃ (p : Process) (j k : Nat) (oj okk : Ontology) (n : Nat),
        PReachable p ∧ j ≠ k ∧ p.onts[j]? = some oj ∧ p.onts[k]? = some okk ∧
        n ∈ lefts oj ∧ n ∈ lefts okk := by
  rintro ⟨p, j, k, oj, okk, n, hp, hne, hj, hk, hnj, hnk⟩
  exact (preachable_pok p hp).2 j k oj okk hne hj hk n hnj hnk

/-- C9 (amended): two independently created instances draw identifiers from
the one shared process counter, and in consequence their identifier spaces
are disjoint — no numeric identifier value is ever issued by two distinct
instances. -/
theorem identifier_spaces_disjoint (p : Process) (hp : PReachable p)
    (j k : Nat) (oj okk : Ontology) (hne : j ≠ k)
    (hj : p.onts[j]? = some oj) (hk : p.onts[k]? = some okk) :
    ∀ n ∈ lefts oj, n ∉ lefts okk :=
  (preachable_pok p hp).2 j k oj okk hne hj hk

/-- Witness for C9 (amended): the two twin instances each interned one fresh
name ("a" got 1, "b" got 2 from the shared counter); value 1 belongs to the
first twin and not to the second. -/
theorem identifier_spaces_disjoint_witness : (1 : Nat) ∉ lefts demoTwinB :=
  identifier_spaces_disjoint (runP twinOps) (preachable_runP twinOps) 0 1
    demoTwinA demoTwinB (by decide) (by decide) (by decide) 1 (by decide)

/-- C10: The `and` collection is empty in every reachable state: no public
operation ever inserts a boolean-combination expression into it. -/
theorem and_collection_empty (o : Ontology) (h : Reachable o) : o.ands = [] :=
  (reachable_inv o h).2.2.2.2.2.2

/-- Witness for C10 at the instance that ran the full A⊑B, B⊑C scenario. -/
theorem and_collection_empty_witness : demoChain.ands = [] :=
  and_collection_empty demoChain ⟨runP chainOps, 0, preachable_runP _, by decide⟩

end HornedOwl
